import Mathlib

/-!
Verification of the core of the provotum node-rs permissioned blockchain node:
a shallow embedding of the block DAG (chain, walker, visitors) and of the
Clique proof-of-authority protocol driver, with theorems settling the frozen
claims about it.

Modelling conventions:
* Rust `HashMap` is modelled as an association list; the code only uses
  `get` / `insert` / `entry().and_modify()/or_insert` / `contains_key` on it
  and iterates the `Vec` values (which keep insertion order), never the map
  iteration order itself.
* The cryptographic primitives from `crypto_rs` are external collaborators
  consumed as opaque verifiers and one homomorphic operator; they are modelled
  freely: a ciphertext is a term of the free algebra over `encrypt` and
  `operate`, and a proof carries its verifier verdict.
* SHA-1 over the bincode serialization is modelled as an injective encoding of
  the serialized content into a `String` (collision-resistance idealization):
  the digest is the serialization itself.
* Wall-clock reads (`SystemTime::now()`) become explicit `now` parameters.
* Rust panics (`unwrap`, `assert!`, explicit `panic!`) become `Option.none`;
  the unbounded recursions of the walkers become fuel-indexed recursion, the
  fuel being chosen large enough for every well-formed chain.
-/

namespace NodeRs

/-- The ElGamal public key of `crypto_rs::el_gamal::encryption::PublicKey`;
its four `ModInt` components are modelled as naturals, the key being opaque
to the node code. -/
structure PublicKey where
  p : Nat
  q : Nat
  h : Nat
  g : Nat
deriving DecidableEq

/-- Opaque ElGamal ciphertexts, modelled as the free algebra over the two
operations the node code uses: `encrypt` (of a plaintext, here a natural) and
the homomorphic operator `operate`. No algebraic identities are assumed,
mirroring the code's purely black-box use. -/
inductive CipherText where
  | enc (key : PublicKey) (message : Nat) : CipherText
  | op (a b : CipherText) : CipherText
deriving DecidableEq

/-- Model of `crypto_rs::el_gamal::encryption::encrypt`. -/
def encrypt (key : PublicKey) (message : Nat) : CipherText :=
  CipherText.enc key message

/-- Model of `crypto_rs::el_gamal::additive::Operate::operate`, the
homomorphic addition on ciphertexts. -/
def CipherText.operate (a b : CipherText) : CipherText :=
  CipherText.op a b

/-- Membership proof consumed as an opaque verifier: only the verdict its
`verify` returns is relevant to the node code. -/
structure MembershipProof where
  verdict : Bool
deriving DecidableEq

/-- Model of `MembershipProof::verify`; the node passes the public key, the
ciphertext and the voting options, and the opaque verifier answers. -/
def MembershipProof.verify (pr : MembershipProof) (_key : PublicKey)
    (_ct : CipherText) (_options : List Nat) : Bool :=
  pr.verdict

/-- Cast-as-intended proof consumed as an opaque verifier. -/
structure CaiProof where
  verdict : Bool
deriving DecidableEq

/-- The public UCIV image set of one voter
(`crypto_rs::cai::uciv::ImageSet`), images modelled as naturals. -/
structure ImageSet where
  images : List Nat
deriving DecidableEq

/-- Model of `CaiProof::verify`. -/
def CaiProof.verify (pr : CaiProof) (_key : PublicKey) (_ct : CipherText)
    (_images : ImageSet) (_options : List Nat) : Bool :=
  pr.verdict

/-- Transaction kinds of `chain::transaction::TransactionType`. -/
inductive TransactionType where
  | Vote : TransactionType
  | VoteOpened : TransactionType
  | VoteClosed : TransactionType
deriving DecidableEq

/-- Payload of a vote transaction (`chain::transaction::TransactionData`). -/
structure TransactionData where
  voter_idx : Nat
  cipher_text : CipherText
  membership_proof : MembershipProof
  cai_proof : CaiProof
deriving DecidableEq

/-- A transaction (`chain::transaction::Transaction`): the identifier is the
digest of the payload (for votes) or of the bare type (for the sentinels). -/
structure Transaction where
  identifier : String
  trx_type : TransactionType
  data : Option TransactionData
deriving DecidableEq

/-- Serialization of a natural, part of the bincode model. -/
def encNat (n : Nat) : String := toString n

/-- Serialization of a ciphertext term, part of the bincode model. -/
def encodeCipherText : CipherText → String
  | CipherText.enc k m =>
      "E(" ++ encNat k.p ++ "," ++ encNat k.q ++ "," ++ encNat k.h ++ ","
        ++ encNat k.g ++ ";" ++ encNat m ++ ")"
  | CipherText.op a b =>
      "O(" ++ encodeCipherText a ++ "," ++ encodeCipherText b ++ ")"

/-- Serialization of `TransactionType`, part of the bincode model. -/
def encodeTransactionType : TransactionType → String
  | TransactionType.Vote => "Vote"
  | TransactionType.VoteOpened => "VoteOpened"
  | TransactionType.VoteClosed => "VoteClosed"

/-- Serialization of `TransactionData`, part of the bincode model. -/
def encodeTransactionData (d : TransactionData) : String :=
  "D(" ++ encNat d.voter_idx ++ ";" ++ encodeCipherText d.cipher_text ++ ";"
    ++ (if d.membership_proof.verdict then "t" else "f") ++ ";"
    ++ (if d.cai_proof.verdict then "t" else "f") ++ ")"

/-- Model of the SHA-1 hex digest: an injective function of the serialized
bytes (collision-resistance idealization), taken to be the serialization
itself. -/
def sha1hex (serialized : String) : String := serialized

/-- Model of `Transaction::new_voting_opened`: the sentinel hashes only its
type and so has a fixed well-known identifier. -/
def Transaction.new_voting_opened : Transaction :=
  { identifier := sha1hex (encodeTransactionType TransactionType.VoteOpened)
    trx_type := TransactionType.VoteOpened
    data := none }

/-- Model of `Transaction::new_voting_closed`. -/
def Transaction.new_voting_closed : Transaction :=
  { identifier := sha1hex (encodeTransactionType TransactionType.VoteClosed)
    trx_type := TransactionType.VoteClosed
    data := none }

/-- Model of `Transaction::new_vote`: the identifier hashes the payload. -/
def Transaction.new_vote (voter_idx : Nat) (cipher_text : CipherText)
    (membership_proof : MembershipProof) (cai_proof : CaiProof) : Transaction :=
  let trx_data : TransactionData :=
    { voter_idx := voter_idx
      cipher_text := cipher_text
      membership_proof := membership_proof
      cai_proof := cai_proof }
  { identifier := sha1hex (encodeTransactionData trx_data)
    trx_type := TransactionType.Vote
    data := some trx_data }

/-- The two voting options `vec![1, 0]` hard-coded in
`Transaction::is_valid` (`ModInt` values modelled as naturals). -/
def votingOptions : List Nat := [1, 0]

/-- Model of `Transaction::is_valid`. Non-`Vote` sentinels are always valid;
a vote verifies its membership proof, looks up the voter's public UCIV image
set (absence makes the transaction invalid), and verifies the cast-as-intended
proof. `none` models the panics: `unwrap` on a vote without data, and the
`assert_eq!` requiring the image set to match the number of voting options. -/
def Transaction.is_valid (t : Transaction) (public_key : PublicKey)
    (image_sets : List ImageSet) : Option Bool :=
  if t.trx_type ≠ TransactionType.Vote then
    some true
  else
    match t.data with
    | none => none
    | some d =>
      let is_membership_proof_valid :=
        d.membership_proof.verify public_key d.cipher_text votingOptions
      match image_sets.get? d.voter_idx with
      | none => some false
      | some image_set =>
        if image_set.images.length = votingOptions.length then
          some (is_membership_proof_valid
            && d.cai_proof.verify public_key d.cipher_text image_set votingOptions)
        else
          none

/-- Content of a block (`chain::block::BlockContent`): parent identifier,
timestamp in seconds, and the ordered transaction sequence. -/
structure BlockContent where
  parent : String
  timestamp : Nat
  transactions : List Transaction
deriving DecidableEq

/-- A block (`chain::block::Block`): its identifier is the digest of its
content. -/
structure Block where
  identifier : String
  data : BlockContent
deriving DecidableEq

/-- Serialization of a transaction (identifier, type and payload), part of
the bincode model. -/
def encodeTransaction (t : Transaction) : String :=
  "T(" ++ t.identifier ++ ";" ++ encodeTransactionType t.trx_type ++ ";"
    ++ (match t.data with
        | none => "-"
        | some d => encodeTransactionData d) ++ ")"

/-- Serialization of a transaction list, part of the bincode model. -/
def encodeTransactionList (ts : List Transaction) : String :=
  "L(" ++ String.intercalate "," (ts.map encodeTransaction) ++ ")"

/-- Serialization of a block content, part of the bincode model. -/
def encodeBlockContent (c : BlockContent) : String :=
  "B(" ++ c.parent ++ ";" ++ encNat c.timestamp ++ ";"
    ++ encodeTransactionList c.transactions ++ ")"

/-- Model of `Block::new`: the wall-clock read `SystemTime::now()` becomes
the explicit parameter `now`, and the identifier is the digest of the content
(parent, timestamp, transactions). -/
def Block.new (previous_hash : String) (transactions : List Transaction)
    (now : Nat) : Block :=
  let block_content : BlockContent :=
    { parent := previous_hash
      timestamp := now
      transactions := transactions }
  { identifier := sha1hex (encodeBlockContent block_content)
    data := block_content }

/-- Lookup in an association list, the model of `HashMap::get`. -/
def alistLookup {α : Type} : List (String × α) → String → Option α
  | [], _ => none
  | kv :: rest, k => if kv.1 = k then some kv.2 else alistLookup rest k

/-- Insert-or-replace in an association list, the model of
`HashMap::insert` and of `entry().or_insert`. -/
def alistInsert {α : Type} : List (String × α) → String → α → List (String × α)
  | [], k, v => [(k, v)]
  | kv :: rest, k, v =>
      if kv.1 = k then (k, v) :: rest else kv :: alistInsert rest k v

/-- The chain (`chain::chain::Chain`): all known blocks keyed by identifier
plus the parent-to-children adjacency. -/
structure Chain where
  genesis_configuration_hash : String
  genesis_identifier_hash : String
  blocks : List (String × Block)
  adjacent_matrix : List (String × List String)
deriving DecidableEq

/-- Model of `Chain::new`: builds the genesis block with an empty parent hash
and no transactions at wall-clock time `now`, and indexes it. -/
def Chain.new (genesis_hash : String) (now : Nat) : Chain :=
  let genesis_block : Block := Block.new "" [] now
  { genesis_configuration_hash := genesis_hash
    genesis_identifier_hash := genesis_block.identifier
    blocks := [(genesis_block.identifier, genesis_block)]
    adjacent_matrix := [(genesis_block.identifier, [])] }

/-- Model of `Chain::has_parent_of_block`. -/
def Chain.has_parent_of_block (c : Chain) (block : Block) : Bool :=
  (alistLookup c.adjacent_matrix block.data.parent).isSome

/-- Model of `Chain::add_block`. Mirrors the source exactly: the
`entry(parent).and_modify(..)` call pushes the child onto the parent's list
only when the parent key is present, and is a no-op on a vacant key (the
documented panic on a missing parent does not exist in the code); then an
empty child list is created for the new block unless one exists, and the
block is inserted into `blocks`, where finding a previous value under the
same identifier panics (`none`). Returns the `bool` result paired with the
updated chain. -/
def Chain.add_block (c : Chain) (block : Block) : Option (Bool × Chain) :=
  match alistLookup c.adjacent_matrix block.data.parent with
  | some parent_block_children =>
    if block.identifier ∈ parent_block_children then
      some (false, c)
    else
      let adj1 := alistInsert c.adjacent_matrix block.data.parent
        (parent_block_children ++ [block.identifier])
      let adj2 := if (alistLookup adj1 block.identifier).isSome then adj1
        else alistInsert adj1 block.identifier []
      match alistLookup c.blocks block.identifier with
      | some _ => none
      | none => some (true,
          { c with adjacent_matrix := adj2
                   blocks := alistInsert c.blocks block.identifier block })
  | none =>
    let adj2 := if (alistLookup c.adjacent_matrix block.identifier).isSome then
        c.adjacent_matrix
      else alistInsert c.adjacent_matrix block.identifier []
    match alistLookup c.blocks block.identifier with
    | some _ => none
    | none => some (true,
        { c with adjacent_matrix := adj2
                 blocks := alistInsert c.blocks block.identifier block })

/-- Inner loop of `traverse_level` (`chain::chain_walker`), shared by
`HeaviestBlockWalker` and `LongestPathWalker` whose `traverse_level` bodies
are textually identical: fold over the children of the current parent,
fetching each child block (`unwrap`, hence `none` on a dangling child),
recursing via `step`, and keeping the strictly deeper result, so that ties
keep the first-encountered candidate. -/
def traverseKidsWith (step : String → Option (Nat × String))
    (blocks : List (String × Block)) :
    List String → Nat × String → Option (Nat × String)
  | [], best => some best
  | child_hash :: rest, best =>
    match alistLookup blocks child_hash with
    | none => none
    | some _ =>
      match step child_hash with
      | none => none
      | some result =>
        traverseKidsWith step blocks rest
          (if result.1 > best.1 then result else best)

/-- Model of `traverse_level` (`chain::chain_walker`): depth-first search
for the deepest block below `parentId`, which sits at depth `parentLevel`.
The source recursion is unbounded; fuel makes it total, `none` standing for
nontermination or a failed `unwrap`. -/
def traverseLevel (c : Chain) : Nat → Nat → String → Option (Nat × String)
  | 0, _, _ => none
  | fuel + 1, parentLevel, parentId =>
    match alistLookup c.adjacent_matrix parentId with
    | none => none
    | some children =>
      traverseKidsWith (fun k => traverseLevel c fuel (parentLevel + 1) k)
        c.blocks children (parentLevel, parentId)

/-- Shared body of `HeaviestBlockWalker::walk_chain` and of the first phase
of `LongestPathWalker::walk_chain` (textually identical in the source):
start from the genesis block at depth 0 and fold `traverse_level` over its
children, each rooted at depth 1, keeping the strictly deeper result. The
fuel `c.blocks.length` bounds the recursion depth, which suffices for every
chain whose blocks form a tree. -/
def findDeepest (c : Chain) : Option (Nat × String) :=
  match alistLookup c.adjacent_matrix c.genesis_identifier_hash with
  | none => none
  | some genesis_children =>
    traverseKidsWith (fun k => traverseLevel c c.blocks.length 1 k)
      c.blocks genesis_children (0, c.genesis_identifier_hash)

/-- Specification-side companion of `traverseKidsWith`: collect the whole
depth-first preorder (depth, identifier) list instead of only the running
best. Used to state what "first encountered in depth-first order" means. -/
def dfsKidsWith (step : String → Option (List (Nat × String)))
    (blocks : List (String × Block)) :
    List String → Option (List (Nat × String))
  | [] => some []
  | child_hash :: rest =>
    match alistLookup blocks child_hash with
    | none => none
    | some _ =>
      match step child_hash with
      | none => none
      | some here =>
        match dfsKidsWith step blocks rest with
        | none => none
        | some there => some (here ++ there)

/-- Specification-side companion of `traverseLevel`: the depth-first preorder
of the subtree rooted at `parentId`. -/
def dfsLevel (c : Chain) : Nat → Nat → String → Option (List (Nat × String))
  | 0, _, _ => none
  | fuel + 1, parentLevel, parentId =>
    match alistLookup c.adjacent_matrix parentId with
    | none => none
    | some children =>
      match dfsKidsWith (fun k => dfsLevel c fuel (parentLevel + 1) k)
          c.blocks children with
      | none => none
      | some l => some ((parentLevel, parentId) :: l)

/-- Depth-first preorder of the whole chain, genesis first at depth 0,
mirroring the traversal order of `findDeepest`. -/
def dfsOrder (c : Chain) : Option (List (Nat × String)) :=
  match alistLookup c.adjacent_matrix c.genesis_identifier_hash with
  | none => none
  | some genesis_children =>
    match dfsKidsWith (fun k => dfsLevel c c.blocks.length 1 k)
        c.blocks genesis_children with
    | none => none
    | some l => some ((0, c.genesis_identifier_hash) :: l)

/-- Edge distance of a block from the genesis block, following parent
identifiers: 0 for the genesis identifier, and one more than the parent's
distance otherwise. Fuel-indexed; a distance `d` is computable with any fuel
above `d`. -/
def rootedDepth (c : Chain) : Nat → String → Option Nat
  | 0, _ => none
  | fuel + 1, id =>
    if id = c.genesis_identifier_hash then some 0
    else
      match alistLookup c.blocks id with
      | none => none
      | some b => (rootedDepth c fuel b.data.parent).map (· + 1)

/-- Model of `LongestPathWalker::traverse_bottom_up`: from the deepest block
upward along parent identifiers, collecting the (height, block) visits in
order, stopping before the genesis block (whose parent identifier is the
empty string); `none` stands for a failed `unwrap` or nontermination. -/
def traverseBottomUp (c : Chain) : Nat → Nat → Block → Option (List (Nat × Block))
  | 0, _, _ => none
  | fuel + 1, child_level, child_block =>
    if child_block.data.parent = "" then some []
    else
      match alistLookup c.blocks child_block.data.parent with
      | none => none
      | some parent_block =>
        (traverseBottomUp c fuel (child_level - 1) parent_block).map
          (fun rest => (child_level, child_block) :: rest)

/-- Model of `LongestPathWalker::walk_chain`: find the deepest block exactly
as `findDeepest` does, then visit bottom-up from it; the visit sequence is
returned as a list. -/
def walkChainLongestPath (c : Chain) : Option (List (Nat × Block)) :=
  match findDeepest c with
  | none => none
  | some deepest =>
    match alistLookup c.blocks deepest.2 with
    | none => none
    | some deepest_block =>
      traverseBottomUp c (c.blocks.length + 1) deepest.1 deepest_block

/-- Model of `Chain::get_current_block`: run the `HeaviestBlockWalker` with
a `HeaviestBlockVisitor` (which records the single (height, block) visit)
and resolve the recorded identifier in `blocks`. -/
def Chain.get_current_block (c : Chain) : Option (Nat × Block) :=
  match findDeepest c with
  | none => none
  | some deepest =>
    match alistLookup c.blocks deepest.2 with
    | none => none
    | some b => some (deepest.1, b)

/-- Model of `Chain::get_current_block_number`. -/
def Chain.get_current_block_number (c : Chain) : Option Nat :=
  (c.get_current_block).map Prod.fst

/-- Model of `Chain::get_current_block_timestamp`. -/
def Chain.get_current_block_timestamp (c : Chain) : Option Nat :=
  (c.get_current_block).map (fun hb => hb.2.data.timestamp)

/-- State of `chain::chain_visitor::SumCipherTextVisitor`; the `HashSet` of
traversed voter indices is modelled as a list. -/
structure SumCipherTextVisitor where
  sum_cipher_text : CipherText
  total_votes : Nat
  zero_cipher_text : CipherText
  is_voting_opened : Bool
  is_voting_closed : Bool
  traversed_vote_idx : List Nat
deriving DecidableEq

/-- Model of `SumCipherTextVisitor::new`: the running sum starts at an
encryption of zero. Note that the source initializes `is_voting_closed` to
`true`. -/
def SumCipherTextVisitor.new (public_key : PublicKey) : SumCipherTextVisitor :=
  let cipher_text := encrypt public_key 0
  { sum_cipher_text := cipher_text
    total_votes := 0
    zero_cipher_text := cipher_text
    is_voting_opened := false
    is_voting_closed := true
    traversed_vote_idx := [] }

/-- Per-transaction step of `SumCipherTextVisitor::visit_block`: sentinels
set the flags; a vote is skipped while `is_voting_closed` is false, skipped
when its voter index was already traversed, and otherwise added
homomorphically, counted, and its voter index recorded. `none` models the
`unwrap` on a vote without data. -/
def sumVisitTransaction (s : SumCipherTextVisitor) (t : Transaction) :
    Option SumCipherTextVisitor :=
  match t.trx_type with
  | TransactionType.VoteOpened => some { s with is_voting_opened := true }
  | TransactionType.VoteClosed => some { s with is_voting_closed := true }
  | TransactionType.Vote =>
    if !s.is_voting_closed then
      some s
    else
      match t.data with
      | none => none
      | some trx_data =>
        if trx_data.voter_idx ∈ s.traversed_vote_idx then
          some s
        else
          some { s with
            sum_cipher_text := s.sum_cipher_text.operate trx_data.cipher_text
            total_votes := s.total_votes + 1
            traversed_vote_idx := trx_data.voter_idx :: s.traversed_vote_idx }

/-- Panic-propagating fold: the model of a Rust `for` loop whose body
mutates a state and may panic. -/
def optFold {α σ : Type} (f : σ → α → Option σ) : σ → List α → Option σ
  | s, [] => some s
  | s, a :: rest =>
    match f s a with
    | none => none
    | some s1 => optFold f s1 rest

/-- Model of `SumCipherTextVisitor::visit_block`: fold the per-transaction
step over the block's transactions in their stored order. -/
def sumVisitBlock (s : SumCipherTextVisitor) (b : Block) :
    Option SumCipherTextVisitor :=
  optFold sumVisitTransaction s b.data.transactions

/-- Model of `SumCipherTextVisitor::get_votes`: the accumulated pair if the
voting was ever opened, and `(0, encryption of zero)` otherwise. -/
def SumCipherTextVisitor.get_votes (s : SumCipherTextVisitor) :
    Nat × CipherText :=
  if s.is_voting_opened then (s.total_votes, s.sum_cipher_text)
  else (0, s.zero_cipher_text)

/-- Model of `FindTransactionVisitor::visit_block`: once found, keep the
result; otherwise loop over the block's transactions — the loop body ends in
an unconditional `break`, so only the first transaction of the block is ever
compared against the searched identifier. -/
def findVisitBlock (transaction_identifier : String)
    (found : Option Transaction) (b : Block) : Option Transaction :=
  match found with
  | some _ => found
  | none =>
    match b.data.transactions with
    | [] => none
    | t :: _ =>
      if transaction_identifier = t.identifier then some t else none

/-- Clique sub-configuration (`config::genesis::CliqueConfig`). -/
structure CliqueConfig where
  block_period : Nat
  signer_limit : Nat
deriving DecidableEq

/-- Genesis configuration (`config::genesis::Genesis`); socket addresses are
modelled as strings. -/
structure Genesis where
  version : String
  clique : CliqueConfig
  sealer : List String
  public_key : PublicKey
  public_uciv : List ImageSet
deriving DecidableEq

/-- State of `protocol::clique::CliqueProtocol`. -/
structure CliqueProtocol where
  transactions : List Transaction
  signer_index : Nat
  signer_count : Nat
  genesis : Genesis
  chain : Chain
deriving DecidableEq

/-- Tally of the voting (`protocol::clique::Tally`). -/
structure Tally where
  total_votes : Nat
  cipher_text : CipherText
deriving DecidableEq

/-- Model of `CliqueProtocol::is_leader`: the leader is the sealer whose
index equals the current block number modulo the signer count; `none` if the
heaviest-block query fails. -/
def CliqueProtocol.is_leader (p : CliqueProtocol) : Option Bool :=
  (p.chain.get_current_block_number).map
    (fun current_block_number =>
      decide (p.signer_index = current_block_number % p.signer_count))

/-- The co-leader bound check of `CliqueProtocol::is_co_leader`, as a pure
function of the current block number `h`, the signer count `n`, the signer
limit `limit` and the signer index `i`: the lower bound is `h % n + 1`, the
upper bound is `(h + limit) % n`, and membership is the plain conjunction of
the two comparisons — the source applies no wrap-around. -/
def coLeaderCheck (h n limit i : Nat) : Bool :=
  let lower_leader_index_bound := h % n + 1
  let upper_leader_index_bound := (h + limit) % n
  decide (i ≥ lower_leader_index_bound) && decide (i ≤ upper_leader_index_bound)

/-- Model of `CliqueProtocol::is_co_leader`. -/
def CliqueProtocol.is_co_leader (p : CliqueProtocol) : Option Bool :=
  (p.chain.get_current_block_number).map
    (fun current_block_number =>
      coLeaderCheck current_block_number p.signer_count
        p.genesis.clique.signer_limit p.signer_index)

/-- Window membership as the specification words it: the inclusive window
from `(h mod n) + 1` to `(h + limit) mod n`, wrapping modulo `n` — when the
upper bound is numerically less than the lower bound, membership is
`i ≥ lower ∨ i ≤ upper`. Stated from the spec, to be compared with
`coLeaderCheck` taken from the source. -/
def coLeaderWindowSpec (h n limit i : Nat) : Bool :=
  let lower := h % n + 1
  let upper := (h + limit) % n
  if upper < lower then decide (i ≥ lower) || decide (i ≤ upper)
  else decide (i ≥ lower) && decide (i ≤ upper)

/-- Buffer membership test: Rust `Vec::contains` uses the `PartialEq` of
`Transaction`, which compares identifiers only. -/
def containsTransaction (buffer : List Transaction) (t : Transaction) : Bool :=
  buffer.any (fun trx => trx.identifier = t.identifier)

/-- Model of `CliqueProtocol::on_transaction_receive`: drop invalid
transactions, drop silently when a transaction with equal identifier is
already buffered, and otherwise append to the buffer exactly when the node
is leader or co-leader (with the source's short-circuit order). `none`
models the panics inside validation or the heaviest-block query. -/
def CliqueProtocol.on_transaction_receive (p : CliqueProtocol)
    (transaction : Transaction) : Option CliqueProtocol :=
  match transaction.is_valid p.genesis.public_key p.genesis.public_uciv with
  | none => none
  | some false => some p
  | some true =>
    if containsTransaction p.transactions transaction then
      some p
    else
      match p.is_leader with
      | none => none
      | some true =>
          some { p with transactions := p.transactions ++ [transaction] }
      | some false =>
        match p.is_co_leader with
        | none => none
        | some true =>
            some { p with transactions := p.transactions ++ [transaction] }
        | some false => some p

/-- Model of `CliqueProtocol::replace_chain`: both heights are computed
first (`none` on failure); a chain whose genesis configuration hash differs
is rejected, and otherwise the own chain is replaced exactly when the other
chain is strictly taller. -/
def CliqueProtocol.replace_chain (p : CliqueProtocol) (chain : Chain) :
    Option CliqueProtocol :=
  match p.chain.get_current_block_number with
  | none => none
  | some own_chain_height =>
    match chain.get_current_block_number with
    | none => none
    | some other_chain_height =>
      if chain.genesis_configuration_hash ≠ p.chain.genesis_configuration_hash then
        some p
      else if own_chain_height < other_chain_height then
        some { p with chain := chain }
      else
        some p

/-- Model of `CliqueProtocol::calculate_result`: walk the heaviest path
bottom-up with a `SumCipherTextVisitor` seeded from the genesis public key
and return its tally. -/
def calculate_result (public_key : PublicKey) (c : Chain) : Option Tally :=
  match walkChainLongestPath c with
  | none => none
  | some visits =>
    match optFold (fun s v => sumVisitBlock s v.2)
        (SumCipherTextVisitor.new public_key) visits with
    | none => none
    | some s =>
      some { total_votes := (s.get_votes).1, cipher_text := (s.get_votes).2 }

/-- Model of `CliqueProtocol::find_transaction`: walk the heaviest path
bottom-up with a `FindTransactionVisitor` and return what it found. -/
def find_transaction (c : Chain) (trx_identifier : String) :
    Option (Option Transaction) :=
  (walkChainLongestPath c).map
    (fun visits =>
      visits.foldl (fun found v => findVisitBlock trx_identifier found v.2) none)

/-- Genesis-only chain used by the concrete scenarios, built from an empty
configuration hash at wall-clock time 0 (as the repository's tests do with
`Chain::new(String::new())`). -/
def genesisChain : Chain := Chain.new "" 0

/-- Test helper mirroring how the repository's tests call
`chain.add_block(..)` and discard the result: keep the updated chain, or the
old one if the call panicked. -/
def addBlockD (c : Chain) (b : Block) : Chain :=
  match c.add_block b with
  | some rc => rc.2
  | none => c

/-- Block literal `1 ← G` of scenarios S1 and S2, as in the repository's
tests. -/
def s2_block : Block :=
  { identifier := "1"
    data := { parent := genesisChain.genesis_identifier_hash
              timestamp := 1
              transactions := [] } }

/-- Chain after appending `1 ← G` once (scenario S2). -/
def s2_once : Chain := addBlockD genesisChain s2_block

/-- Chain after appending `1 ← G` twice (scenario S2). -/
def s2_twice : Chain := addBlockD s2_once s2_block

/-- Scenario S1 chain: blocks `1 ← G`, `21 ← 1`, `22 ← 1`, `3 ← 22`,
`4 ← 3`, with the identifiers and timestamps of the repository's
`test_heaviest_path` test. -/
def s1_chain : Chain :=
  addBlockD (addBlockD (addBlockD (addBlockD (addBlockD genesisChain s2_block)
    { identifier := "21", data := { parent := "1", timestamp := 2, transactions := [] } })
    { identifier := "22", data := { parent := "1", timestamp := 3, transactions := [] } })
    { identifier := "3", data := { parent := "22", timestamp := 4, transactions := [] } })
    { identifier := "4", data := { parent := "3", timestamp := 5, transactions := [] } }

/-- One comparison step of the deepest-block fold: keep the new candidate
exactly when it is strictly deeper, so that the first-encountered candidate
wins ties. This is the `if result.0 > most_deepest_block.0` update of
`traverse_level`, named for the specification lemmas. -/
def maxStep (best result : Nat × String) : Nat × String :=
  if result.1 > best.1 then result else best

/-- Decidable well-formedness of a chain, the invariants of section 3 of the
specification that the heaviest-block theorems use: the genesis block is
stored with an empty parent identifier; the empty string is not an adjacency
key; every child recorded under an adjacency key is a stored block whose
parent identifier is that key; every non-genesis block is recorded as a
child of its parent; and every block has a well-defined edge distance from
the genesis block. -/
def Chain.wfb (c : Chain) : Bool :=
  (match alistLookup c.blocks c.genesis_identifier_hash with
   | some gb => decide (gb.data.parent = "")
   | none => false)
  && (alistLookup c.adjacent_matrix "").isNone
  && c.adjacent_matrix.all (fun pkids => pkids.2.all (fun k =>
       match alistLookup c.blocks k with
       | some b => decide (b.data.parent = pkids.1)
       | none => false))
  && c.blocks.all (fun kb => decide (kb.1 = c.genesis_identifier_hash) ||
       (match alistLookup c.adjacent_matrix kb.2.data.parent with
        | some kids => decide (kb.1 ∈ kids)
        | none => false))
  && c.blocks.all (fun kb => (rootedDepth c c.blocks.length kb.1).isSome)

/-- Public key used by the concrete scenarios (its components are opaque). -/
def pk1 : PublicKey := ⟨1, 1, 1, 1⟩

/-- Ciphertext `c1` of scenarios S4 and S5. -/
def c1ct : CipherText := CipherText.enc pk1 11

/-- Ciphertext `c2` of scenario S5. -/
def c2ct : CipherText := CipherText.enc pk1 22

/-- A membership proof whose verifier accepts. -/
def mpOk : MembershipProof := ⟨true⟩

/-- A cast-as-intended proof whose verifier accepts. -/
def cpOk : CaiProof := ⟨true⟩

/-- Vote of voter 0 with ciphertext `c1` (scenario S5, leaf block). -/
def voteC1 : Transaction := Transaction.new_vote 0 c1ct mpOk cpOk

/-- Vote of voter 0 with ciphertext `c2` (scenario S5, parent block). -/
def voteC2 : Transaction := Transaction.new_vote 0 c2ct mpOk cpOk

/-- Scenario S5 parent block `1 ← G` with transactions
`(VoteOpened, Vote(0, c2), VoteClosed)`. -/
def s5_parent : Block :=
  { identifier := "1"
    data := { parent := genesisChain.genesis_identifier_hash
              timestamp := 1
              transactions := [Transaction.new_voting_opened, voteC2,
                Transaction.new_voting_closed] } }

/-- Scenario S5 leaf block `2 ← 1` with the single transaction
`Vote(0, c1)`. -/
def s5_leaf : Block :=
  { identifier := "2"
    data := { parent := "1", timestamp := 2, transactions := [voteC1] } }

/-- Scenario S5 chain: genesis, parent block, leaf block on one branch. -/
def s5_chain : Chain := addBlockD (addBlockD genesisChain s5_parent) s5_leaf

/-- Vote of voter 1, first transaction of the lookup scenario block. -/
def trxA : Transaction := Transaction.new_vote 1 c1ct mpOk cpOk

/-- Vote of voter 2, second transaction of the lookup scenario block. -/
def trxB : Transaction := Transaction.new_vote 2 c2ct mpOk cpOk

/-- Block `1 ← G` holding the two transactions `(trxA, trxB)`. -/
def c4_block : Block :=
  { identifier := "1"
    data := { parent := genesisChain.genesis_identifier_hash
              timestamp := 1
              transactions := [trxA, trxB] } }

/-- Chain for the transaction-lookup scenario. -/
def c4_chain : Chain := addBlockD genesisChain c4_block

/-- A block whose parent identifier `zzz` is not a key of the genesis
chain's adjacency. -/
def orphanBlock : Block :=
  { identifier := "x"
    data := { parent := "zzz", timestamp := 1, transactions := [] } }

/-- Genesis configuration with three sealers, signer limit 2, block period 5
and one voter image set of the size of the voting options. -/
def genesis3 : Genesis :=
  { version := "1.0"
    clique := { block_period := 5, signer_limit := 2 }
    sealer := ["a", "b", "c"]
    public_key := pk1
    public_uciv := [⟨[1, 2]⟩] }

/-- Protocol state at heaviest height 1 with signer index 2 of 3: by the
wrapped window of the specification this node would be a co-leader, the
source says it is not. -/
def protoC3 : CliqueProtocol :=
  { transactions := [], signer_index := 2, signer_count := 3
    genesis := genesis3, chain := s2_once }

/-- Protocol state at heaviest height 0 with signer index 2 of 3: a
co-leader (window from 1 to 2, no wrap). -/
def protoCo : CliqueProtocol :=
  { transactions := [], signer_index := 2, signer_count := 3
    genesis := genesis3, chain := genesisChain }

/-- Protocol state at heaviest height 1 with signer index 1 of 3: the
leader. -/
def protoLeader : CliqueProtocol :=
  { transactions := [], signer_index := 1, signer_count := 3
    genesis := genesis3, chain := s2_once }

/-- A vote of voter 0 whose two proofs verify, valid against `genesis3`. -/
def voteValid : Transaction := Transaction.new_vote 0 c1ct mpOk cpOk

theorem alistLookup_insert_self {α : Type} (m : List (String × α)) (k : String)
    (v : α) : alistLookup (alistInsert m k v) k = some v := by
  induction m with
  | nil => simp [alistInsert, alistLookup]
  | cons kv rest ih =>
    by_cases h : kv.1 = k
    · simp [alistInsert, h, alistLookup]
    · simp [alistInsert, h, alistLookup, ih]

theorem alistLookup_insert_ne {α : Type} (m : List (String × α))
    (k k' : String) (v : α) (h : k' ≠ k) :
    alistLookup (alistInsert m k v) k' = alistLookup m k' := by
  induction m with
  | nil => simp [alistInsert, alistLookup, Ne.symm h]
  | cons kv rest ih =>
    obtain ⟨k0, v0⟩ := kv
    by_cases hk : k0 = k
    · subst hk
      simp [alistInsert, alistLookup, Ne.symm h]
    · by_cases hk' : k0 = k'
      · subst hk'
        simp [alistInsert, hk, alistLookup]
      · simp [alistInsert, hk, alistLookup, hk', ih]

theorem alistLookup_mem {α : Type} {m : List (String × α)} {k : String}
    {v : α} (h : alistLookup m k = some v) : (k, v) ∈ m := by
  induction m with
  | nil => simp [alistLookup] at h
  | cons kv rest ih =>
    obtain ⟨k0, v0⟩ := kv
    by_cases hk : k0 = k
    · subst hk
      simp [alistLookup] at h
      subst h
      exact List.mem_cons_self _ _
    · simp [alistLookup, hk] at h
      exact List.mem_cons_of_mem _ (ih h)

theorem alistLookup_isSome_of_mem {α : Type} {m : List (String × α)}
    {kv : String × α} (h : kv ∈ m) : (alistLookup m kv.1).isSome := by
  induction m with
  | nil => simp at h
  | cons hd rest ih =>
    rcases List.mem_cons.mp h with h | h
    · subst h
      simp [alistLookup]
    · by_cases hk : hd.1 = kv.1
      · simp [alistLookup, hk]
      · simp [alistLookup, hk]
        exact ih h

/-- The claim C10 property: `Chain::new` hashes a genesis block whose content
includes the wall-clock timestamp of the construction, so two chains built
from the identical genesis configuration at distinct times share the
configuration hash but differ in the genesis block identifier. -/
theorem claim_C10_genesis_identifier_time_dependent :
    ∀ g : String, ∃ t1 t2 : Nat,
      (Chain.new g t1).genesis_configuration_hash
          = (Chain.new g t2).genesis_configuration_hash
        ∧ (Chain.new g t1).genesis_identifier_hash
          ≠ (Chain.new g t2).genesis_identifier_hash := by
  intro g
  refine ⟨0, 1, rfl, ?_⟩
  have h0 : (Chain.new g 0).genesis_identifier_hash
      = (Block.new "" [] 0).identifier := rfl
  have h1 : (Chain.new g 1).genesis_identifier_hash
      = (Block.new "" [] 1).identifier := rfl
  rw [h0, h1]
  decide

/-- The claim C2 evidence: calling `add_block` with a block whose parent
identifier `zzz` is not a key of the adjacency does not fail — it silently
inserts the block into `blocks`, creates an empty child list for it, leaves
the absent parent key absent, and returns `true`, contradicting the claimed
fatal `UnknownParent` with no state change (and the function's own comment
"Panics, if the parent block specified does not exist"). -/
theorem claim_C2_add_block_unknown_parent_silent_insert :
    alistLookup genesisChain.adjacent_matrix orphanBlock.data.parent = none
    ∧ ∃ ch, genesisChain.add_block orphanBlock = some (true, ch)
        ∧ alistLookup ch.blocks orphanBlock.identifier = some orphanBlock
        ∧ alistLookup ch.adjacent_matrix orphanBlock.identifier = some []
        ∧ alistLookup ch.adjacent_matrix orphanBlock.data.parent = none
        ∧ ch ≠ genesisChain :=
  ⟨by decide, addBlockD genesisChain orphanBlock,
    by decide, by decide, by decide, by decide, by decide⟩

/-- The claim C1 evidence, scenario S5: `SumCipherTextVisitor::new`
initializes `is_voting_closed` to `true`, so walking bottom-up the leaf's
`Vote(0, c1)` is counted immediately (no `VoteClosed` was encountered on a
deeper block yet) and the parent's `Vote(0, c2)` is then skipped as a
duplicate of voter 0: the tally is `1` vote with ciphertext
`encryption_of_zero ⊕ c1`, not `encryption_of_zero ⊕ c2` as claimed. -/
theorem claim_C1_tally_counts_vote_before_close :
    (SumCipherTextVisitor.new pk1).is_voting_closed = true
    ∧ calculate_result pk1 s5_chain
        = some { total_votes := 1
                 cipher_text := (encrypt pk1 0).operate c1ct }
    ∧ (encrypt pk1 0).operate c1ct ≠ (encrypt pk1 0).operate c2ct
    ∧ walkChainLongestPath s5_chain = some [(2, s5_leaf), (1, s5_parent)] := by
  refine ⟨by decide, by decide, by decide, by decide⟩

/-- The claim C4 evidence: the transaction-search loop of
`FindTransactionVisitor::visit_block` ends in an unconditional `break`, so
only the first transaction of each block is compared; searching for the
identifier of `trxB`, stored at the second position of the only non-genesis
block on the heaviest path, returns nothing, while the first-position
`trxA` is found. -/
theorem claim_C4_find_transaction_first_only :
    find_transaction c4_chain trxB.identifier = some none
    ∧ (∃ v ∈ (walkChainLongestPath c4_chain).getD [],
        trxB ∈ v.2.data.transactions)
    ∧ find_transaction c4_chain trxA.identifier = some (some trxA)
    ∧ trxA.identifier ≠ trxB.identifier := by
  refine ⟨by decide, by decide, by decide, by decide⟩

/-- The claim C3 counterexample: at heaviest height 1 with signer count 3,
signer limit 2 and signer index 2 the window of the specification wraps
(lower bound 2, upper bound 0) and contains index 2, but the source code's
conjunction of bounds is false: `is_co_leader` disagrees with the wrapped
window membership. -/
theorem claim_C3_counterexample :
    protoC3.is_co_leader ≠ some (coLeaderWindowSpec 1 3 2 2)
    ∧ protoC3.chain.get_current_block_number = some 1
    ∧ protoC3.signer_count = 3
    ∧ protoC3.genesis.clique.signer_limit = 2
    ∧ protoC3.signer_index = 2
    ∧ protoC3.is_co_leader = some false
    ∧ coLeaderWindowSpec 1 3 2 2 = true := by
  refine ⟨by decide, by decide, by decide, by decide, by decide, by decide,
    by decide⟩

/-- The claim C3 amended: `is_co_leader` holds iff the signer index lies in
the inclusive window from `(h mod n) + 1` to `(h + signer_limit) mod n`
read WITHOUT wrap-around — when the upper bound is numerically less than
the lower bound the window is empty and nobody is a co-leader. -/
theorem claim_C3_co_leader_window_no_wrap (p : CliqueProtocol) (h : Nat)
    (hh : p.chain.get_current_block_number = some h) :
    p.is_co_leader = some true
      ↔ (h % p.signer_count + 1 ≤ p.signer_index
          ∧ p.signer_index ≤ (h + p.genesis.clique.signer_limit) % p.signer_count) := by
  rw [CliqueProtocol.is_co_leader, hh]
  simp [coLeaderCheck, ge_iff_le]

/-- Witness for the amended claim C3 at a concrete co-leader: height 0,
signer count 3, signer limit 2, signer index 2. -/
theorem claim_C3_co_leader_window_no_wrap_witness :
    protoCo.is_co_leader = some true
      ↔ (0 % protoCo.signer_count + 1 ≤ protoCo.signer_index
          ∧ protoCo.signer_index
            ≤ (0 + protoCo.genesis.clique.signer_limit) % protoCo.signer_count) :=
  claim_C3_co_leader_window_no_wrap protoCo 0 (by decide)

/-- The claim C5 property: with both heights defined, `replace_chain`
replaces the own chain exactly when the other chain has the same genesis
configuration hash and a strictly greater heaviest height; in every other
case the own chain (indeed the whole protocol state) is unchanged. -/
theorem claim_C5_replace_chain (p : CliqueProtocol) (other : Chain)
    (own oth : Nat) (hown : p.chain.get_current_block_number = some own)
    (hoth : other.get_current_block_number = some oth) :
    (other.genesis_configuration_hash = p.chain.genesis_configuration_hash
        ∧ own < oth →
      p.replace_chain other = some { p with chain := other })
    ∧ (¬(other.genesis_configuration_hash = p.chain.genesis_configuration_hash
        ∧ own < oth) →
      p.replace_chain other = some p) := by
  constructor
  · rintro ⟨heq, hlt⟩
    simp only [CliqueProtocol.replace_chain, hown, hoth]
    simp [heq, hlt]
  · intro hn
    simp only [CliqueProtocol.replace_chain, hown, hoth]
    by_cases heq : other.genesis_configuration_hash
        = p.chain.genesis_configuration_hash
    · have hlt : ¬ own < oth := fun hl => hn ⟨heq, hl⟩
      simp [heq, hlt]
    · simp [heq]

/-- Witness for claim C5: a protocol at height 1 offered the strictly taller
scenario-S1 chain (height 4) with the matching empty configuration hash. -/
theorem claim_C5_replace_chain_witness :
    (s1_chain.genesis_configuration_hash
        = protoLeader.chain.genesis_configuration_hash ∧ 1 < 4 →
      protoLeader.replace_chain s1_chain
        = some { protoLeader with chain := s1_chain })
    ∧ (¬(s1_chain.genesis_configuration_hash
        = protoLeader.chain.genesis_configuration_hash ∧ 1 < 4) →
      protoLeader.replace_chain s1_chain = some protoLeader) :=
  claim_C5_replace_chain protoLeader s1_chain 1 4 (by decide) (by decide)

/-- The claim C7 property: for a block whose parent is present, a second
`add_block` call right after a first one returns `false` and leaves the
chain exactly as after the first call, and the parent's child list holds the
block's identifier exactly once; scenario S2 concretely. -/
theorem claim_C7_add_block_idempotent (c : Chain) (b : Block)
    (kids : List String)
    (hpar : alistLookup c.adjacent_matrix b.data.parent = some kids)
    (hnodup : kids.Nodup) (r : Bool) (c1 : Chain)
    (hfirst : c.add_block b = some (r, c1)) :
    c1.add_block b = some (false, c1)
    ∧ (∃ kids1, alistLookup c1.adjacent_matrix b.data.parent = some kids1
        ∧ kids1.count b.identifier = 1)
    ∧ (s2_twice = s2_once ∧ s2_once.blocks.length = 2
        ∧ alistLookup s2_once.adjacent_matrix genesisChain.genesis_identifier_hash
          = some ["1"]
        ∧ s2_once.add_block s2_block = some (false, s2_once)) := by
  simp only [Chain.add_block, hpar] at hfirst
  by_cases hmem : b.identifier ∈ kids
  · rw [if_pos hmem] at hfirst
    simp only [Option.some.injEq, Prod.mk.injEq] at hfirst
    obtain ⟨hr, hc⟩ := hfirst
    subst hc
    refine ⟨?_, ⟨kids, hpar, List.count_eq_one_of_mem hnodup hmem⟩,
      by decide, by decide, by decide, by decide⟩
    simp only [Chain.add_block, hpar]
    rw [if_pos hmem]
  · rw [if_neg hmem] at hfirst
    cases hbl : alistLookup c.blocks b.identifier with
    | some bb => rw [hbl] at hfirst; exact absurd hfirst (by simp)
    | none =>
      rw [hbl] at hfirst
      simp only [Option.some.injEq, Prod.mk.injEq] at hfirst
      obtain ⟨hr, hc⟩ := hfirst
      subst hc
      have hadj1 : alistLookup (alistInsert c.adjacent_matrix b.data.parent
          (kids ++ [b.identifier])) b.data.parent
          = some (kids ++ [b.identifier]) :=
        alistLookup_insert_self _ _ _
      have hadj2 : alistLookup
          (if (alistLookup (alistInsert c.adjacent_matrix b.data.parent
                (kids ++ [b.identifier])) b.identifier).isSome = true then
              alistInsert c.adjacent_matrix b.data.parent (kids ++ [b.identifier])
            else
              alistInsert (alistInsert c.adjacent_matrix b.data.parent
                (kids ++ [b.identifier])) b.identifier [])
          b.data.parent
          = some (kids ++ [b.identifier]) := by
        split
        · exact hadj1
        · next hs =>
          have hne : b.data.parent ≠ b.identifier := by
            intro he
            rw [← he] at hs
            exact hs (by rw [alistLookup_insert_self]; rfl)
          rw [alistLookup_insert_ne _ _ _ _ hne]
          exact hadj1
      have hmem1 : b.identifier ∈ kids ++ [b.identifier] := by simp
      refine ⟨?_, ⟨kids ++ [b.identifier], hadj2, ?_⟩,
        by decide, by decide, by decide, by decide⟩
      · simp only [Chain.add_block, hadj2]
        rw [if_pos hmem1]
      · rw [List.count_append]
        rw [List.count_eq_zero_of_not_mem hmem]
        simp

/-- Witness for claim C7: scenario S2, appending `1 ← G` to the genesis
chain and then appending it again. -/
theorem claim_C7_add_block_idempotent_witness :
    s2_once.add_block s2_block = some (false, s2_once)
    ∧ (∃ kids1, alistLookup s2_once.adjacent_matrix s2_block.data.parent
        = some kids1 ∧ kids1.count s2_block.identifier = 1)
    ∧ (s2_twice = s2_once ∧ s2_once.blocks.length = 2
        ∧ alistLookup s2_once.adjacent_matrix genesisChain.genesis_identifier_hash
          = some ["1"]
        ∧ s2_once.add_block s2_block = some (false, s2_once)) :=
  claim_C7_add_block_idempotent genesisChain s2_block [] (by decide)
    (by decide) true s2_once (by decide)

/-- The claim C9 property: `on_transaction_receive` drops an invalid
transaction with no state change (and a vote whose voter index is out of
range of the public UCIV image sets is invalid), drops silently a
transaction whose identifier is already buffered, and otherwise appends to
the buffer exactly when the node is leader or co-leader. -/
theorem claim_C9_transaction_intake (p : CliqueProtocol) (t : Transaction)
    (lb cb : Bool) (hl : p.is_leader = some lb) (hc : p.is_co_leader = some cb) :
    (t.is_valid p.genesis.public_key p.genesis.public_uciv = some false →
      p.on_transaction_receive t = some p)
    ∧ (∀ d, t.trx_type = TransactionType.Vote → t.data = some d →
        p.genesis.public_uciv.length ≤ d.voter_idx →
        t.is_valid p.genesis.public_key p.genesis.public_uciv = some false)
    ∧ (t.is_valid p.genesis.public_key p.genesis.public_uciv = some true →
        containsTransaction p.transactions t = true →
        p.on_transaction_receive t = some p)
    ∧ (t.is_valid p.genesis.public_key p.genesis.public_uciv = some true →
        containsTransaction p.transactions t = false →
        (lb || cb) = true →
        p.on_transaction_receive t
          = some { p with transactions := p.transactions ++ [t] })
    ∧ (t.is_valid p.genesis.public_key p.genesis.public_uciv = some true →
        containsTransaction p.transactions t = false →
        lb = false → cb = false → p.on_transaction_receive t = some p) := by
  refine ⟨?_, ?_, ?_, ?_, ?_⟩
  · intro hv
    simp [CliqueProtocol.on_transaction_receive, hv]
  · intro d htt hd hrange
    simp [Transaction.is_valid, htt, hd, List.getElem?_eq_none hrange]
  · intro hv hcont
    simp [CliqueProtocol.on_transaction_receive, hv, hcont]
  · intro hv hcont hor
    cases lb with
    | true =>
      simp [CliqueProtocol.on_transaction_receive, hv, hcont, hl]
    | false =>
      have hcb : cb = true := by simpa using hor
      subst hcb
      simp [CliqueProtocol.on_transaction_receive, hv, hcont, hl, hc]
  · intro hv hcont hlb hcb
    subst hlb
    subst hcb
    simp [CliqueProtocol.on_transaction_receive, hv, hcont, hl, hc]

/-- Witness for claim C9: the leader protocol (signer index 1 at height 1 of
3 sealers) receiving a valid vote of voter 0 with accepting proofs. -/
theorem claim_C9_transaction_intake_witness :
    (voteValid.is_valid protoLeader.genesis.public_key
        protoLeader.genesis.public_uciv = some false →
      protoLeader.on_transaction_receive voteValid = some protoLeader)
    ∧ (∀ d, voteValid.trx_type = TransactionType.Vote → voteValid.data = some d →
        protoLeader.genesis.public_uciv.length ≤ d.voter_idx →
        voteValid.is_valid protoLeader.genesis.public_key
          protoLeader.genesis.public_uciv = some false)
    ∧ (voteValid.is_valid protoLeader.genesis.public_key
        protoLeader.genesis.public_uciv = some true →
        containsTransaction protoLeader.transactions voteValid = true →
        protoLeader.on_transaction_receive voteValid = some protoLeader)
    ∧ (voteValid.is_valid protoLeader.genesis.public_key
        protoLeader.genesis.public_uciv = some true →
        containsTransaction protoLeader.transactions voteValid = false →
        (true || false) = true →
        protoLeader.on_transaction_receive voteValid
          = some { protoLeader with
                   transactions := protoLeader.transactions ++ [voteValid] })
    ∧ (voteValid.is_valid protoLeader.genesis.public_key
        protoLeader.genesis.public_uciv = some true →
        containsTransaction protoLeader.transactions voteValid = false →
        true = false → false = false →
        protoLeader.on_transaction_receive voteValid = some protoLeader) :=
  claim_C9_transaction_intake protoLeader voteValid true false (by decide)
    (by decide)

theorem sumVisitTransaction_opened {s s' : SumCipherTextVisitor}
    {t : Transaction} (h : sumVisitTransaction s t = some s') :
    s'.is_voting_opened
      = (s.is_voting_opened || decide (t.trx_type = TransactionType.VoteOpened))
    ∧ s'.zero_cipher_text = s.zero_cipher_text := by
  cases htt : t.trx_type with
  | VoteOpened =>
    simp [sumVisitTransaction, htt] at h
    subst h
    simp [htt]
  | VoteClosed =>
    simp [sumVisitTransaction, htt] at h
    subst h
    simp [htt]
  | Vote =>
    simp only [sumVisitTransaction, htt] at h
    by_cases hcl : s.is_voting_closed
    · rw [hcl] at h
      simp only [Bool.not_true] at h
      rw [if_neg Bool.false_ne_true] at h
      cases hd : t.data with
      | none =>
        simp only [hd] at h
        exact Option.noConfusion h
      | some d =>
        simp only [hd] at h
        by_cases hidx : d.voter_idx ∈ s.traversed_vote_idx
        · rw [if_pos hidx] at h
          simp only [Option.some.injEq] at h
          subst h
          simp [htt]
        · rw [if_neg hidx] at h
          simp only [Option.some.injEq] at h
          subst h
          simp [htt]
    · have hclf : s.is_voting_closed = false := by
        simpa using hcl
      rw [hclf] at h
      simp at h
      subst h
      simp [htt]

theorem sumVisitList_opened :
    ∀ (ts : List Transaction) (s s' : SumCipherTextVisitor),
      optFold sumVisitTransaction s ts = some s' →
      s'.is_voting_opened
        = (s.is_voting_opened
            || ts.any (fun t => decide (t.trx_type = TransactionType.VoteOpened)))
      ∧ s'.zero_cipher_text = s.zero_cipher_text := by
  intro ts
  induction ts with
  | nil =>
    intro s s' h
    simp only [optFold, Option.some.injEq] at h
    subst h
    simp
  | cons t rest ih =>
    intro s s' h
    simp only [optFold] at h
    cases h1 : sumVisitTransaction s t with
    | none =>
      simp only [h1] at h
      exact Option.noConfusion h
    | some s1 =>
      simp only [h1] at h
      obtain ⟨ho1, hz1⟩ := sumVisitTransaction_opened h1
      obtain ⟨ho2, hz2⟩ := ih s1 s' h
      constructor
      · rw [ho2, ho1, List.any_cons, Bool.or_assoc]
      · rw [hz2, hz1]

theorem sumVisitBlocks_opened :
    ∀ (visits : List (Nat × Block)) (s s' : SumCipherTextVisitor),
      optFold (fun st v => sumVisitBlock st v.2) s visits = some s' →
      s'.is_voting_opened
        = (s.is_voting_opened
            || visits.any (fun v => v.2.data.transactions.any
                (fun t => decide (t.trx_type = TransactionType.VoteOpened))))
      ∧ s'.zero_cipher_text = s.zero_cipher_text := by
  intro visits
  induction visits with
  | nil =>
    intro s s' h
    simp only [optFold, Option.some.injEq] at h
    subst h
    simp
  | cons v rest ih =>
    intro s s' h
    simp only [optFold] at h
    cases h1 : sumVisitBlock s v.2 with
    | none =>
      simp only [h1] at h
      exact Option.noConfusion h
    | some s1 =>
      simp only [h1] at h
      obtain ⟨ho1, hz1⟩ := sumVisitList_opened v.2.data.transactions s s1 h1
      obtain ⟨ho2, hz2⟩ := ih s1 s' h
      constructor
      · rw [ho2, ho1, List.any_cons, Bool.or_assoc]
      · rw [hz2, hz1]

/-- The claim C8 property: when no `VoteOpened` sentinel occurs on the
heaviest path (including the genesis-only chain), `calculate_result`
returns the non-error tally of zero votes with an encryption of zero, and
when one occurs it returns the accumulated count and homomorphic sum of the
visitor's fold. -/
theorem claim_C8_tally_not_opened (pk : PublicKey) (c : Chain)
    (visits : List (Nat × Block)) (s : SumCipherTextVisitor)
    (hw : walkChainLongestPath c = some visits)
    (hf : optFold (fun st v => sumVisitBlock st v.2)
      (SumCipherTextVisitor.new pk) visits = some s) :
    ((∀ v ∈ visits, ∀ t ∈ v.2.data.transactions,
        t.trx_type ≠ TransactionType.VoteOpened) →
      calculate_result pk c
        = some { total_votes := 0, cipher_text := encrypt pk 0 })
    ∧ ((∃ v ∈ visits, ∃ t ∈ v.2.data.transactions,
        t.trx_type = TransactionType.VoteOpened) →
      calculate_result pk c
        = some { total_votes := s.total_votes, cipher_text := s.sum_cipher_text })
    ∧ (∀ g tm, calculate_result pk (Chain.new g tm)
        = some { total_votes := 0, cipher_text := encrypt pk 0 }) := by
  obtain ⟨ho, hz⟩ := sumVisitBlocks_opened visits _ s hf
  refine ⟨?_, ?_, ?_⟩
  · intro hno
    have hany : visits.any (fun v => v.2.data.transactions.any
        (fun t => decide (t.trx_type = TransactionType.VoteOpened))) = false := by
      simp only [List.any_eq_false]
      intro v hv
      simp only [Bool.not_eq_true, List.any_eq_false]
      intro t ht
      simpa using hno v hv t ht
    have hopen : s.is_voting_opened = false := by
      rw [ho, hany]
      simp [SumCipherTextVisitor.new]
    have hzero : s.zero_cipher_text = encrypt pk 0 := by
      rw [hz]
      rfl
    simp only [calculate_result, hw, hf, SumCipherTextVisitor.get_votes, hopen]
    simp [hzero]
  · intro hex
    have hany : visits.any (fun v => v.2.data.transactions.any
        (fun t => decide (t.trx_type = TransactionType.VoteOpened))) = true := by
      obtain ⟨v, hv, t, ht, htt⟩ := hex
      refine List.any_eq_true.mpr ⟨v, hv, ?_⟩
      exact List.any_eq_true.mpr ⟨t, ht, by simpa using htt⟩
    have hopen : s.is_voting_opened = true := by
      rw [ho, hany]
      simp
    simp only [calculate_result, hw, hf, SumCipherTextVisitor.get_votes, hopen]
    simp
  · intro g tm
    simp [calculate_result, walkChainLongestPath, findDeepest, Chain.new,
      alistLookup, traverseKidsWith, traverseBottomUp, Block.new, optFold,
      SumCipherTextVisitor.new, SumCipherTextVisitor.get_votes, encrypt]

/-- Witness for claim C8: the genesis-only chain, whose heaviest path is
empty and whose tally is zero votes with an encryption of zero. -/
theorem claim_C8_tally_not_opened_witness :
    ((∀ v ∈ ([] : List (Nat × Block)), ∀ t ∈ v.2.data.transactions,
        t.trx_type ≠ TransactionType.VoteOpened) →
      calculate_result pk1 genesisChain
        = some { total_votes := 0, cipher_text := encrypt pk1 0 })
    ∧ ((∃ v ∈ ([] : List (Nat × Block)), ∃ t ∈ v.2.data.transactions,
        t.trx_type = TransactionType.VoteOpened) →
      calculate_result pk1 genesisChain
        = some { total_votes := (SumCipherTextVisitor.new pk1).total_votes
                 cipher_text := (SumCipherTextVisitor.new pk1).sum_cipher_text })
    ∧ (∀ g tm, calculate_result pk1 (Chain.new g tm)
        = some { total_votes := 0, cipher_text := encrypt pk1 0 }) :=
  claim_C8_tally_not_opened pk1 genesisChain [] (SumCipherTextVisitor.new pk1)
    (by decide) rfl

theorem maxStep_assoc (a b c : Nat × String) :
    maxStep (maxStep a b) c = maxStep a (maxStep b c) := by
  simp only [maxStep]
  split_ifs <;> first | rfl | (exfalso; omega)

theorem foldl_maxStep_shift :
    ∀ (l : List (Nat × String)) (b x : Nat × String),
      List.foldl maxStep (maxStep b x) l = maxStep b (List.foldl maxStep x l) := by
  intro l
  induction l with
  | nil => intro b x; rfl
  | cons y t ih =>
    intro b x
    simp only [List.foldl_cons]
    rw [maxStep_assoc, ih]

theorem foldl_maxStep_first :
    ∀ (l : List (Nat × String)) (b : Nat × String),
      ∃ l1 l2, b :: l = l1 ++ (List.foldl maxStep b l) :: l2
        ∧ (∀ x ∈ l1, x.1 < (List.foldl maxStep b l).1)
        ∧ (∀ x ∈ b :: l, x.1 ≤ (List.foldl maxStep b l).1) := by
  intro l
  induction l with
  | nil =>
    intro b
    refine ⟨[], [], rfl, by simp, ?_⟩
    intro x hx
    simp only [List.foldl_nil]
    rw [List.mem_singleton.mp hx]
  | cons y t ih =>
    intro b
    simp only [List.foldl_cons]
    by_cases hy : y.1 > b.1
    · have hms : maxStep b y = y := by simp [maxStep, hy]
      rw [hms]
      obtain ⟨l1, l2, hdec, hlt, hle⟩ := ih y
      have hyr : y.1 ≤ (List.foldl maxStep y t).1 :=
        hle y (List.mem_cons_self _ _)
      refine ⟨b :: l1, l2, ?_, ?_, ?_⟩
      · rw [List.cons_append, ← hdec]
      · intro x hx
        rcases List.mem_cons.mp hx with h | h
        · rw [h]; omega
        · exact hlt x h
      · intro x hx
        rcases List.mem_cons.mp hx with h | h
        · rw [h]; omega
        · exact hle x h
    · have hms : maxStep b y = b := by simp [maxStep, hy]
      rw [hms]
      obtain ⟨l1, l2, hdec, hlt, hle⟩ := ih b
      have hyb : y.1 ≤ b.1 := by omega
      have hbr : b.1 ≤ (List.foldl maxStep b t).1 :=
        hle b (List.mem_cons_self _ _)
      cases l1 with
      | nil =>
        simp only [List.nil_append] at hdec
        have hb : b = List.foldl maxStep b t := (List.cons_eq_cons.mp hdec).1
        refine ⟨[], y :: t, ?_, by simp, ?_⟩
        · simp only [List.nil_append]
          rw [← hb]
        · intro x hx
          rcases List.mem_cons.mp hx with h | h
          · rw [h]; omega
          · rcases List.mem_cons.mp h with h2 | h2
            · rw [h2]; omega
            · exact hle x (List.mem_cons_of_mem _ h2)
      | cons hd l1' =>
        simp only [List.cons_append] at hdec
        obtain ⟨hhd, htt⟩ := List.cons_eq_cons.mp hdec
        have hbd : b.1 < (List.foldl maxStep b t).1 := by
          have hh := hlt hd (List.mem_cons_self _ _)
          rw [← hhd] at hh
          exact hh
        refine ⟨b :: y :: l1', l2, ?_, ?_, ?_⟩
        · simp only [List.cons_append]
          conv_lhs => rw [htt]
        · intro x hx
          rcases List.mem_cons.mp hx with h | h
          · rw [h]; omega
          · rcases List.mem_cons.mp h with h2 | h2
            · rw [h2]; omega
            · exact hlt x (List.mem_cons_of_mem _ h2)
        · intro x hx
          rcases List.mem_cons.mp hx with h | h
          · rw [h]; omega
          · rcases List.mem_cons.mp h with h2 | h2
            · rw [h2]; omega
            · exact hle x (List.mem_cons_of_mem _ h2)

theorem dfsKidsWith_fold {blocks : List (String × Block)}
    {dstep : String → Option (List (Nat × String))}
    {tstep : String → Option (Nat × String)}
    (hstep : ∀ k lk, dstep k = some lk →
      ∃ hd tl, lk = hd :: tl ∧ tstep k = some (List.foldl maxStep hd tl)) :
    ∀ (kids : List String) (best : Nat × String) (L : List (Nat × String)),
      dfsKidsWith dstep blocks kids = some L →
      traverseKidsWith tstep blocks kids best = some (List.foldl maxStep best L) := by
  intro kids
  induction kids with
  | nil =>
    intro best L h
    simp only [dfsKidsWith, Option.some.injEq] at h
    subst h
    rfl
  | cons k rest ih =>
    intro best L h
    simp only [dfsKidsWith] at h
    cases hlook : alistLookup blocks k with
    | none => simp only [hlook] at h; exact Option.noConfusion h
    | some bk =>
      simp only [hlook] at h
      cases hdk : dstep k with
      | none => simp only [hdk] at h; exact Option.noConfusion h
      | some lk =>
        simp only [hdk] at h
        cases hrest : dfsKidsWith dstep blocks rest with
        | none => simp only [hrest] at h; exact Option.noConfusion h
        | some L2 =>
          simp only [hrest, Option.some.injEq] at h
          subst h
          obtain ⟨hd, tl, hlk, htk⟩ := hstep k lk hdk
          simp only [traverseKidsWith, hlook, htk]
          have hif : (if (List.foldl maxStep hd tl).1 > best.1
              then List.foldl maxStep hd tl else best)
              = maxStep best (List.foldl maxStep hd tl) := rfl
          rw [hif]
          rw [ih (maxStep best (List.foldl maxStep hd tl)) L2 hrest]
          congr 1
          rw [hlk, List.foldl_append, List.foldl_cons]
          rw [foldl_maxStep_shift tl best hd]

theorem traverseLevel_eq_dfsLevel (c : Chain) :
    ∀ (fuel lvl : Nat) (pid : String) (l : List (Nat × String)),
      dfsLevel c fuel lvl pid = some l →
      ∃ rest, l = (lvl, pid) :: rest
        ∧ traverseLevel c fuel lvl pid
          = some (List.foldl maxStep (lvl, pid) rest) := by
  intro fuel
  induction fuel with
  | zero =>
    intro lvl pid l h
    exact Option.noConfusion h
  | succ fuel ih =>
    intro lvl pid l h
    simp only [dfsLevel] at h
    cases hlook : alistLookup c.adjacent_matrix pid with
    | none => simp only [hlook] at h; exact Option.noConfusion h
    | some children =>
      simp only [hlook] at h
      cases hk : dfsKidsWith (fun k => dfsLevel c fuel (lvl + 1) k)
          c.blocks children with
      | none => simp only [hk] at h; exact Option.noConfusion h
      | some l0 =>
        simp only [hk, Option.some.injEq] at h
        subst h
        refine ⟨l0, rfl, ?_⟩
        simp only [traverseLevel, hlook]
        refine dfsKidsWith_fold ?_ children (lvl, pid) l0 hk
        intro k lk hlk
        obtain ⟨rest, hr, ht⟩ := ih (lvl + 1) k lk hlk
        exact ⟨(lvl + 1, k), rest, hr, ht⟩

theorem dfsOrder_findDeepest (c : Chain) (L : List (Nat × String))
    (hdfs : dfsOrder c = some L) :
    ∃ L0, L = (0, c.genesis_identifier_hash) :: L0
      ∧ findDeepest c
        = some (List.foldl maxStep (0, c.genesis_identifier_hash) L0) := by
  simp only [dfsOrder] at hdfs
  cases hlook : alistLookup c.adjacent_matrix c.genesis_identifier_hash with
  | none => simp only [hlook] at hdfs; exact Option.noConfusion hdfs
  | some kids =>
    simp only [hlook] at hdfs
    cases hk : dfsKidsWith (fun k => dfsLevel c c.blocks.length 1 k)
        c.blocks kids with
    | none => simp only [hk] at hdfs; exact Option.noConfusion hdfs
    | some L0 =>
      simp only [hk, Option.some.injEq] at hdfs
      subst hdfs
      refine ⟨L0, rfl, ?_⟩
      simp only [findDeepest, hlook]
      refine dfsKidsWith_fold ?_ kids (0, c.genesis_identifier_hash) L0 hk
      intro k lk hlk
      obtain ⟨rest, hr, ht⟩ := traverseLevel_eq_dfsLevel c c.blocks.length 1 k lk hlk
      exact ⟨(1, k), rest, hr, ht⟩

theorem wfb_props (c : Chain) (hwf : c.wfb = true) :
    (∃ gb, alistLookup c.blocks c.genesis_identifier_hash = some gb
       ∧ gb.data.parent = "")
    ∧ alistLookup c.adjacent_matrix "" = none
    ∧ (∀ p kids, alistLookup c.adjacent_matrix p = some kids →
        ∀ k ∈ kids, ∃ b, alistLookup c.blocks k = some b ∧ b.data.parent = p)
    ∧ (∀ k b, alistLookup c.blocks k = some b →
        k ≠ c.genesis_identifier_hash →
        ∃ kids, alistLookup c.adjacent_matrix b.data.parent = some kids
          ∧ k ∈ kids)
    ∧ (∀ k b, alistLookup c.blocks k = some b →
        ∃ d, rootedDepth c c.blocks.length k = some d) := by
  simp only [Chain.wfb, Bool.and_eq_true] at hwf
  obtain ⟨⟨⟨⟨h1, h2⟩, h3⟩, h4⟩, h5⟩ := hwf
  refine ⟨?_, ?_, ?_, ?_, ?_⟩
  · cases hg : alistLookup c.blocks c.genesis_identifier_hash with
    | none => rw [hg] at h1; exact absurd h1 (by simp)
    | some gb =>
      rw [hg] at h1
      exact ⟨gb, rfl, of_decide_eq_true h1⟩
  · exact Option.isNone_iff_eq_none.mp h2
  · intro p kids hlook k hk
    have hmem := alistLookup_mem hlook
    have h3p := List.all_eq_true.mp h3 (p, kids) hmem
    have h3k := List.all_eq_true.mp h3p k hk
    cases hb : alistLookup c.blocks k with
    | none => rw [hb] at h3k; exact absurd h3k (by simp)
    | some b =>
      rw [hb] at h3k
      exact ⟨b, rfl, of_decide_eq_true h3k⟩
  · intro k b hlook hne
    have hmem := alistLookup_mem hlook
    have h4p := List.all_eq_true.mp h4 (k, b) hmem
    rcases Bool.or_eq_true_iff.mp h4p with hg | hrest
    · exact absurd (of_decide_eq_true hg) hne
    · cases ha : alistLookup c.adjacent_matrix b.data.parent with
      | none => rw [ha] at hrest; exact absurd hrest (by simp)
      | some kids =>
        rw [ha] at hrest
        exact ⟨kids, rfl, of_decide_eq_true hrest⟩
  · intro k b hlook
    have hmem := alistLookup_mem hlook
    have h5p := List.all_eq_true.mp h5 (k, b) hmem
    exact Option.isSome_iff_exists.mp h5p |>.imp fun d hd => hd

theorem child_depth (c : Chain) (hwf : c.wfb = true) :
    ∀ (pid : String) (children : List String) (lvl : Nat),
      alistLookup c.adjacent_matrix pid = some children →
      rootedDepth c (lvl + 1) pid = some lvl →
      ∀ k ∈ children, rootedDepth c (lvl + 2) k = some (lvl + 1) := by
  obtain ⟨⟨gb, hgb, hgbp⟩, hempty, hcp, _, _⟩ := wfb_props c hwf
  intro pid children lvl hlook hdep k hk
  obtain ⟨b, hbk, hbp⟩ := hcp pid children hlook k hk
  have hkne : k ≠ c.genesis_identifier_hash := by
    intro he
    rw [he] at hbk
    rw [hgb] at hbk
    have hbg : gb = b := by
      simpa using hbk
    rw [← hbg] at hbp
    rw [hgbp] at hbp
    rw [← hbp] at hlook
    rw [hempty] at hlook
    exact Option.noConfusion hlook
  show rootedDepth c ((lvl + 1) + 1) k = some (lvl + 1)
  rw [rootedDepth]
  rw [if_neg hkne]
  simp only [hbk, hbp, hdep, Option.map_some']

theorem dfsKids_depth {c : Chain}
    {dstep : String → Option (List (Nat × String))} (childLvl : Nat)
    (hstep : ∀ k lk, dstep k = some lk →
      rootedDepth c (childLvl + 1) k = some childLvl →
      ∀ x ∈ lk, rootedDepth c (x.1 + 1) x.2 = some x.1) :
    ∀ (kids : List String) (L : List (Nat × String)),
      dfsKidsWith dstep c.blocks kids = some L →
      (∀ k ∈ kids, rootedDepth c (childLvl + 1) k = some childLvl) →
      ∀ x ∈ L, rootedDepth c (x.1 + 1) x.2 = some x.1 := by
  intro kids
  induction kids with
  | nil =>
    intro L h hdeps
    simp only [dfsKidsWith, Option.some.injEq] at h
    subst h
    simp
  | cons k rest ih =>
    intro L h hdeps
    simp only [dfsKidsWith] at h
    cases hlook : alistLookup c.blocks k with
    | none => simp only [hlook] at h; exact Option.noConfusion h
    | some bk =>
      simp only [hlook] at h
      cases hdk : dstep k with
      | none => simp only [hdk] at h; exact Option.noConfusion h
      | some lk =>
        simp only [hdk] at h
        cases hrest : dfsKidsWith dstep c.blocks rest with
        | none => simp only [hrest] at h; exact Option.noConfusion h
        | some L2 =>
          simp only [hrest, Option.some.injEq] at h
          subst h
          intro x hx
          rcases List.mem_append.mp hx with hxl | hxr
          · exact hstep k lk hdk (hdeps k (List.mem_cons_self _ _)) x hxl
          · exact ih L2 hrest (fun k2 hk2 => hdeps k2 (List.mem_cons_of_mem _ hk2))
              x hxr

theorem dfsLevel_depth (c : Chain) (hwf : c.wfb = true) :
    ∀ (fuel lvl : Nat) (pid : String) (l : List (Nat × String)),
      dfsLevel c fuel lvl pid = some l →
      rootedDepth c (lvl + 1) pid = some lvl →
      ∀ x ∈ l, rootedDepth c (x.1 + 1) x.2 = some x.1 := by
  intro fuel
  induction fuel with
  | zero =>
    intro lvl pid l h
    exact Option.noConfusion h
  | succ fuel ih =>
    intro lvl pid l h hdep
    simp only [dfsLevel] at h
    cases hlook : alistLookup c.adjacent_matrix pid with
    | none => simp only [hlook] at h; exact Option.noConfusion h
    | some children =>
      simp only [hlook] at h
      cases hk : dfsKidsWith (fun k => dfsLevel c fuel (lvl + 1) k)
          c.blocks children with
      | none => simp only [hk] at h; exact Option.noConfusion h
      | some l0 =>
        simp only [hk, Option.some.injEq] at h
        subst h
        intro x hx
        rcases List.mem_cons.mp hx with hx0 | hx0
        · rw [hx0]
          exact hdep
        · exact dfsKids_depth (lvl + 1)
            (fun k lk hlk hdk => ih (lvl + 1) k lk hlk hdk)
            children l0 hk
            (child_depth c hwf pid children lvl hlook hdep) x hx0

theorem dfsOrder_depth (c : Chain) (hwf : c.wfb = true)
    (L : List (Nat × String)) (hdfs : dfsOrder c = some L) :
    ∀ x ∈ L, rootedDepth c (x.1 + 1) x.2 = some x.1 := by
  simp only [dfsOrder] at hdfs
  cases hlook : alistLookup c.adjacent_matrix c.genesis_identifier_hash with
  | none => simp only [hlook] at hdfs; exact Option.noConfusion hdfs
  | some kids =>
    simp only [hlook] at hdfs
    cases hk : dfsKidsWith (fun k => dfsLevel c c.blocks.length 1 k)
        c.blocks kids with
    | none => simp only [hk] at hdfs; exact Option.noConfusion hdfs
    | some L0 =>
      simp only [hk, Option.some.injEq] at hdfs
      subst hdfs
      have hgen : rootedDepth c 1 c.genesis_identifier_hash = some 0 := by
        simp [rootedDepth]
      intro x hx
      rcases List.mem_cons.mp hx with hx0 | hx0
      · rw [hx0]
        exact hgen
      · exact dfsKids_depth 1
          (fun k lk hlk hdk => dfsLevel_depth c hwf c.blocks.length 1 k lk hlk hdk)
          kids L0 hk
          (child_depth c hwf c.genesis_identifier_hash kids 0 hlook hgen) x hx0

theorem dfsKids_closed {blocks : List (String × Block)}
    {adj : List (String × List String)}
    {dstep : String → Option (List (Nat × String))} (childLvl : Nat)
    (hstep : ∀ k lk, dstep k = some lk →
      (childLvl, k) ∈ lk
      ∧ ∀ x ∈ lk, ∃ kids2, alistLookup adj x.2 = some kids2
          ∧ ∀ k' ∈ kids2, (x.1 + 1, k') ∈ lk) :
    ∀ (kids : List String) (L : List (Nat × String)),
      dfsKidsWith dstep blocks kids = some L →
      (∀ k ∈ kids, (childLvl, k) ∈ L)
      ∧ ∀ x ∈ L, ∃ kids2, alistLookup adj x.2 = some kids2
          ∧ ∀ k' ∈ kids2, (x.1 + 1, k') ∈ L := by
  intro kids
  induction kids with
  | nil =>
    intro L h
    simp only [dfsKidsWith, Option.some.injEq] at h
    subst h
    exact ⟨by simp, by simp⟩
  | cons k rest ih =>
    intro L h
    simp only [dfsKidsWith] at h
    cases hlook : alistLookup blocks k with
    | none => simp only [hlook] at h; exact Option.noConfusion h
    | some bk =>
      simp only [hlook] at h
      cases hdk : dstep k with
      | none => simp only [hdk] at h; exact Option.noConfusion h
      | some lk =>
        simp only [hdk] at h
        cases hrest : dfsKidsWith dstep blocks rest with
        | none => simp only [hrest] at h; exact Option.noConfusion h
        | some L2 =>
          simp only [hrest, Option.some.injEq] at h
          subst h
          obtain ⟨hhd, hcl⟩ := hstep k lk hdk
          obtain ⟨hmem2, hcl2⟩ := ih L2 hrest
          constructor
          · intro k2 hk2
            rcases List.mem_cons.mp hk2 with hk2 | hk2
            · rw [hk2]
              exact List.mem_append_left _ hhd
            · exact List.mem_append_right _ (hmem2 k2 hk2)
          · intro x hx
            rcases List.mem_append.mp hx with hxl | hxr
            · obtain ⟨kids2, hlk2, hall⟩ := hcl x hxl
              exact ⟨kids2, hlk2,
                fun k' hk' => List.mem_append_left _ (hall k' hk')⟩
            · obtain ⟨kids2, hlk2, hall⟩ := hcl2 x hxr
              exact ⟨kids2, hlk2,
                fun k' hk' => List.mem_append_right _ (hall k' hk')⟩

theorem dfsLevel_closed (c : Chain) :
    ∀ (fuel lvl : Nat) (pid : String) (l : List (Nat × String)),
      dfsLevel c fuel lvl pid = some l →
      (lvl, pid) ∈ l
      ∧ ∀ x ∈ l, ∃ kids2, alistLookup c.adjacent_matrix x.2 = some kids2
          ∧ ∀ k' ∈ kids2, (x.1 + 1, k') ∈ l := by
  intro fuel
  induction fuel with
  | zero =>
    intro lvl pid l h
    exact Option.noConfusion h
  | succ fuel ih =>
    intro lvl pid l h
    simp only [dfsLevel] at h
    cases hlook : alistLookup c.adjacent_matrix pid with
    | none => simp only [hlook] at h; exact Option.noConfusion h
    | some children =>
      simp only [hlook] at h
      cases hk : dfsKidsWith (fun k => dfsLevel c fuel (lvl + 1) k)
          c.blocks children with
      | none => simp only [hk] at h; exact Option.noConfusion h
      | some l0 =>
        simp only [hk, Option.some.injEq] at h
        subst h
        obtain ⟨hmem0, hcl0⟩ := dfsKids_closed (lvl + 1)
          (fun k lk hlk => ih (lvl + 1) k lk hlk) children l0 hk
        refine ⟨List.mem_cons_self _ _, ?_⟩
        intro x hx
        rcases List.mem_cons.mp hx with hx0 | hx0
        · refine ⟨children, by rw [hx0]; exact hlook, ?_⟩
          intro k' hk'
          rw [hx0]
          exact List.mem_cons_of_mem _ (hmem0 k' hk')
        · obtain ⟨kids2, hlk2, hall⟩ := hcl0 x hx0
          exact ⟨kids2, hlk2,
            fun k' hk' => List.mem_cons_of_mem _ (hall k' hk')⟩

theorem dfsOrder_closed (c : Chain) (L : List (Nat × String))
    (hdfs : dfsOrder c = some L) :
    (0, c.genesis_identifier_hash) ∈ L
    ∧ ∀ x ∈ L, ∃ kids2, alistLookup c.adjacent_matrix x.2 = some kids2
        ∧ ∀ k' ∈ kids2, (x.1 + 1, k') ∈ L := by
  simp only [dfsOrder] at hdfs
  cases hlook : alistLookup c.adjacent_matrix c.genesis_identifier_hash with
  | none => simp only [hlook] at hdfs; exact Option.noConfusion hdfs
  | some kids =>
    simp only [hlook] at hdfs
    cases hk : dfsKidsWith (fun k => dfsLevel c c.blocks.length 1 k)
        c.blocks kids with
    | none => simp only [hk] at hdfs; exact Option.noConfusion hdfs
    | some L0 =>
      simp only [hk, Option.some.injEq] at hdfs
      subst hdfs
      obtain ⟨hmem0, hcl0⟩ := dfsKids_closed 1
        (fun k lk hlk => dfsLevel_closed c c.blocks.length 1 k lk hlk)
        kids L0 hk
      refine ⟨List.mem_cons_self _ _, ?_⟩
      intro x hx
      rcases List.mem_cons.mp hx with hx0 | hx0
      · refine ⟨kids, by rw [hx0]; exact hlook, ?_⟩
        intro k' hk'
        rw [hx0]
        exact List.mem_cons_of_mem _ (hmem0 k' hk')
      · obtain ⟨kids2, hlk2, hall⟩ := hcl0 x hx0
        exact ⟨kids2, hlk2,
          fun k' hk' => List.mem_cons_of_mem _ (hall k' hk')⟩

theorem rootedDepth_zero_inv {c : Chain} {f : Nat} {k : String}
    (h : rootedDepth c f k = some 0) : k = c.genesis_identifier_hash := by
  cases f with
  | zero => exact Option.noConfusion h
  | succ f =>
    simp only [rootedDepth] at h
    by_cases hg : k = c.genesis_identifier_hash
    · exact hg
    · rw [if_neg hg] at h
      cases hb : alistLookup c.blocks k with
      | none => rw [hb] at h; exact Option.noConfusion h
      | some b =>
        simp only [hb, Option.map_eq_some'] at h
        obtain ⟨a, _, ha⟩ := h
        exact absurd ha (by omega)

theorem rootedDepth_succ_inv {c : Chain} {f d : Nat} {k : String}
    (h : rootedDepth c (f + 1) k = some (d + 1)) :
    k ≠ c.genesis_identifier_hash
    ∧ ∃ b, alistLookup c.blocks k = some b
      ∧ rootedDepth c f b.data.parent = some d := by
  simp only [rootedDepth] at h
  by_cases hg : k = c.genesis_identifier_hash
  · rw [if_pos hg] at h
    simp at h
  · rw [if_neg hg] at h
    cases hb : alistLookup c.blocks k with
    | none => rw [hb] at h; exact Option.noConfusion h
    | some b =>
      simp only [hb, Option.map_eq_some'] at h
      obtain ⟨a, ha, hd⟩ := h
      have had : a = d := by omega
      subst had
      exact ⟨hg, b, rfl, ha⟩

theorem dfs_complete (c : Chain) (hwf : c.wfb = true)
    (L : List (Nat × String)) (hdfs : dfsOrder c = some L) :
    ∀ (f d : Nat) (k : String), rootedDepth c f k = some d → (d, k) ∈ L := by
  obtain ⟨hhead, hclosed⟩ := dfsOrder_closed c L hdfs
  obtain ⟨_, _, _, hip, _⟩ := wfb_props c hwf
  intro f
  induction f with
  | zero =>
    intro d k h
    exact Option.noConfusion h
  | succ f ih =>
    intro d k h
    cases d with
    | zero =>
      rw [rootedDepth_zero_inv h]
      exact hhead
    | succ d2 =>
      obtain ⟨hne, b, hbk, hdep⟩ := rootedDepth_succ_inv h
      have hmem : (d2, b.data.parent) ∈ L := ih d2 b.data.parent hdep
      obtain ⟨kids, hlk, hcl⟩ := hclosed _ hmem
      obtain ⟨kids2, hlk2, hkin⟩ := hip k b hbk hne
      rw [hlk2] at hlk
      have hkk : kids = kids2 := by
        simpa using hlk.symm
      exact hcl k (by rw [hkk]; exact hkin)

/-- The claim C6 property: the heaviest-block query returns the node whose
edge distance from the genesis block is maximal over all blocks, breaking
ties by the first node encountered in the depth-first preorder `L` over the
adjacency lists (`r` occurs in `L` after only strictly shallower nodes);
the genesis-only chain yields height 0 with the genesis block, and scenario
S1 yields height 4 with block `4`. -/
theorem claim_C6_heaviest_block (c : Chain) (L : List (Nat × String))
    (hwf : c.wfb = true) (hdfs : dfsOrder c = some L) :
    (∃ r, findDeepest c = some r
      ∧ (∃ l1 l2, L = l1 ++ r :: l2 ∧ ∀ x ∈ l1, x.1 < r.1)
      ∧ (∀ x ∈ L, x.1 ≤ r.1)
      ∧ rootedDepth c (r.1 + 1) r.2 = some r.1
      ∧ (∀ (f d : Nat) (k : String), rootedDepth c f k = some d →
          (d, k) ∈ L ∧ d ≤ r.1)
      ∧ (∀ kb ∈ c.blocks, ∃ d,
          rootedDepth c c.blocks.length kb.1 = some d))
    ∧ (∀ g t, (Chain.new g t).get_current_block = some (0, Block.new "" [] t))
    ∧ s1_chain.get_current_block
        = some (4, { identifier := "4"
                     data := { parent := "3", timestamp := 5
                               transactions := [] } }) := by
  obtain ⟨L0, hL, hfd⟩ := dfsOrder_findDeepest c L hdfs
  obtain ⟨l1, l2, hdec, hlt, hle⟩ :=
    foldl_maxStep_first L0 (0, c.genesis_identifier_hash)
  have hdepth := dfsOrder_depth c hwf L hdfs
  have hcomp := dfs_complete c hwf L hdfs
  refine ⟨⟨List.foldl maxStep (0, c.genesis_identifier_hash) L0, hfd,
    ⟨l1, l2, by rw [hL, hdec], hlt⟩, ?_, ?_, ?_, ?_⟩, ?_, ?_⟩
  · intro x hx
    rw [hL] at hx
    exact hle x (hdec ▸ hx)
  · have hrmem : List.foldl maxStep (0, c.genesis_identifier_hash) L0 ∈ L := by
      rw [hL, hdec]
      exact List.mem_append_right l1 (List.mem_cons_self _ _)
    exact hdepth _ hrmem
  · intro f d k h
    refine ⟨hcomp f d k h, ?_⟩
    have hmem := hcomp f d k h
    rw [hL] at hmem
    exact hle (d, k) (hdec ▸ hmem)
  · intro kb hkb
    obtain ⟨_, _, _, _, hdd⟩ := wfb_props c hwf
    have hs := alistLookup_isSome_of_mem hkb
    obtain ⟨b, hb⟩ := Option.isSome_iff_exists.mp hs
    exact hdd kb.1 b hb
  · intro g t
    simp [Chain.get_current_block, findDeepest, Chain.new, alistLookup,
      traverseKidsWith]
  · decide

/-- Witness for claim C6: scenario S1 with its explicit depth-first
preorder. -/
theorem claim_C6_heaviest_block_witness :
    ((∃ r, findDeepest s1_chain = some r
      ∧ (∃ l1 l2,
          [(0, genesisChain.genesis_identifier_hash), (1, "1"), (2, "21"),
            (2, "22"), (3, "3"), (4, "4")] = l1 ++ r :: l2
          ∧ ∀ x ∈ l1, x.1 < r.1)
      ∧ (∀ x ∈ [(0, genesisChain.genesis_identifier_hash), (1, "1"), (2, "21"),
            (2, "22"), (3, "3"), (4, "4")], x.1 ≤ r.1)
      ∧ rootedDepth s1_chain (r.1 + 1) r.2 = some r.1
      ∧ (∀ (f d : Nat) (k : String), rootedDepth s1_chain f k = some d →
          (d, k) ∈ [(0, genesisChain.genesis_identifier_hash), (1, "1"),
            (2, "21"), (2, "22"), (3, "3"), (4, "4")] ∧ d ≤ r.1)
      ∧ (∀ kb ∈ s1_chain.blocks, ∃ d,
          rootedDepth s1_chain s1_chain.blocks.length kb.1 = some d))
    ∧ (∀ g t, (Chain.new g t).get_current_block = some (0, Block.new "" [] t))
    ∧ s1_chain.get_current_block
        = some (4, { identifier := "4"
                     data := { parent := "3", timestamp := 5
                               transactions := [] } })) :=
  claim_C6_heaviest_block s1_chain
    [(0, genesisChain.genesis_identifier_hash), (1, "1"), (2, "21"),
      (2, "22"), (3, "3"), (4, "4")] (by decide) (by decide)

end NodeRs
